import Mathlib

/-!
Verification of the core pipeline of a Cloudflare Pages direct-upload client
(`src/index.ts`): content hashing (Blake3 over base64 content plus filename
extension), the JWT token cache, the retry-with-backoff request wrapper, the
directory scan for special files, and the `deployFiles` orchestration
(check-missing, bounded worker upload loop, upsert, create-deployment).

The embedding is shallow: pure TypeScript expressions become Lean functions,
the stateful token cache becomes explicit state passing, and the network is
an oracle input (the `checkMissing` response list, the outcome of each
attempt of a request).  Machine integers are `Nat`/`Int` with explicit
`% 2^32` where the Blake3 compression function overflows.  External
collaborators (the mime lookup, the JSON parse of JWT claims) are function
parameters.
-/

set_option maxRecDepth 16384

/-! ## Blake3 (the `blake3-wasm` `hash` function)

A complete executable Blake3, used by `computeHashB64`
(`blake3hash(b64 + extension).toString('hex').slice(0, 32)`).  Words are
`Nat` reduced mod `2^32`; bytes are `Nat` values below 256. -/

def u32mod : Nat := 4294967296

def add32 (a b : Nat) : Nat := (a + b) % u32mod

def rotr32 (x n : Nat) : Nat := ((x >>> n) ||| (x <<< (32 - n))) % u32mod

/-- The eight Blake3 IV words (the first eight SHA-256 IV words). -/
def blake3IV : List Nat :=
  [0x6A09E667, 0xBB67AE85, 0x3C6EF372, 0xA54FF53A,
   0x510E527F, 0x9B05688C, 0x1F83D9AB, 0x5BE0CD19]

/-- The Blake3 quarter-round applied to state positions `a b c d` with
message words `mx my`. -/
def gfun (st : List Nat) (a b c d : Nat) (mx my : Nat) : List Nat :=
  let va := add32 (add32 (st.getD a 0) (st.getD b 0)) mx
  let vd := rotr32 ((st.getD d 0) ^^^ va) 16
  let vc := add32 (st.getD c 0) vd
  let vb := rotr32 ((st.getD b 0) ^^^ vc) 12
  let va2 := add32 (add32 va vb) my
  let vd2 := rotr32 (vd ^^^ va2) 8
  let vc2 := add32 vc vd2
  let vb2 := rotr32 (vb ^^^ vc2) 7
  ((((st.set a va2).set b vb2).set c vc2).set d vd2)

/-- One Blake3 round: four column quarter-rounds then four diagonal ones. -/
def blake3Round (st m : List Nat) : List Nat :=
  let st := gfun st 0 4 8 12 (m.getD 0 0) (m.getD 1 0)
  let st := gfun st 1 5 9 13 (m.getD 2 0) (m.getD 3 0)
  let st := gfun st 2 6 10 14 (m.getD 4 0) (m.getD 5 0)
  let st := gfun st 3 7 11 15 (m.getD 6 0) (m.getD 7 0)
  let st := gfun st 0 5 10 15 (m.getD 8 0) (m.getD 9 0)
  let st := gfun st 1 6 11 12 (m.getD 10 0) (m.getD 11 0)
  let st := gfun st 2 7 8 13 (m.getD 12 0) (m.getD 13 0)
  gfun st 3 4 9 14 (m.getD 14 0) (m.getD 15 0)

/-- The Blake3 message word permutation applied between rounds. -/
def permuteMsg (m : List Nat) : List Nat :=
  [2, 6, 3, 10, 7, 0, 4, 13, 1, 11, 12, 5, 9, 14, 15, 8].map (fun i => m.getD i 0)

/-- The Blake3 compression function: chaining value `cv` (8 words), message
block `m` (16 words), a 64-bit counter, the block length and the domain
flags; returns the full 16-word output. -/
def blake3Compress (cv m : List Nat) (counter blockLen flags : Nat) : List Nat :=
  let v0 := cv.take 8 ++ blake3IV.take 4 ++
    [counter % u32mod, (counter / u32mod) % u32mod, blockLen % u32mod, flags % u32mod]
  let vm := (List.range 7).foldl
    (fun (p : List Nat × List Nat) _ => (blake3Round p.1 p.2, permuteMsg p.2)) (v0, m)
  let v := vm.1
  (List.range 8).map (fun i => (v.getD i 0) ^^^ (v.getD (i + 8) 0)) ++
    (List.range 8).map (fun i => (v.getD (i + 8) 0) ^^^ (cv.getD i 0))

/-- A 32-bit little-endian word from four bytes. -/
def leWord (a b c d : Nat) : Nat := a + 256 * b + 65536 * c + 16777216 * d

/-- A (≤ 64)-byte block as 16 little-endian words, zero padded. -/
def blockWords (bs : List Nat) : List Nat :=
  (List.range 16).map (fun i =>
    leWord (bs.getD (4 * i) 0) (bs.getD (4 * i + 1) 0)
      (bs.getD (4 * i + 2) 0) (bs.getD (4 * i + 3) 0))

/-- Split a chunk into 64-byte blocks; the empty chunk is a single empty
block.  Structural recursion on a fuel that the initial byte count always
covers, so the definition unfolds by plain reduction. -/
def chunkBlocksGo : Nat → List Nat → List (List Nat)
  | 0, bs => [bs]
  | fuel + 1, bs =>
    if bs.length ≤ 64 then [bs]
    else bs.take 64 :: chunkBlocksGo fuel (bs.drop 64)

def chunkBlocks (bs : List Nat) : List (List Nat) := chunkBlocksGo bs.length bs

/-- Compress the blocks of one chunk in sequence.  `startFlag` is
`CHUNK_START` (1) for the first block; the last block also gets `CHUNK_END`
(2) and, for the root chunk, `ROOT` (8) via `rootFlag`. -/
def chunkFold (cv : List Nat) (t startFlag rootFlag : Nat) : List (List Nat) → List Nat
  | [] => cv
  | [blk] =>
    (blake3Compress cv (blockWords blk) t blk.length (startFlag + 2 + rootFlag)).take 8
  | blk :: rest =>
    chunkFold ((blake3Compress cv (blockWords blk) t blk.length startFlag).take 8)
      t 0 rootFlag rest

/-- The largest power of two strictly below `n` (for `n ≥ 2`): how many
chunks the left subtree of a Blake3 parent node takes. -/
def leftChunkCount (n : Nat) : Nat := 2 ^ Nat.log 2 (n - 1)

/-- The chaining value of the Blake3 tree over `bs`, with first chunk
counter `t`; `rootFlag` is 8 exactly on the root call.  Each level of the
tree strips at least one full chunk from either side, so a fuel equal to
the byte count always suffices and the recursion stays structural. -/
def blake3CVGo : Nat → List Nat → Nat → Nat → List Nat
  | 0, bs, t, rootFlag => chunkFold blake3IV t 1 rootFlag (chunkBlocks bs)
  | fuel + 1, bs, t, rootFlag =>
    if bs.length ≤ 1024 then
      chunkFold blake3IV t 1 rootFlag (chunkBlocks bs)
    else
      let chunks := (bs.length + 1023) / 1024
      let leftLen := leftChunkCount chunks * 1024
      let lcv := blake3CVGo fuel (bs.take leftLen) t 0
      let rcv := blake3CVGo fuel (bs.drop leftLen) (t + leftChunkCount chunks) 0
      (blake3Compress blake3IV (lcv ++ rcv) 0 64 (4 + rootFlag)).take 8

def blake3CV (bs : List Nat) (t rootFlag : Nat) : List Nat :=
  blake3CVGo bs.length bs t rootFlag

/-- The 32-byte Blake3 digest of a byte list, as words then bytes. -/
def blake3Words (bs : List Nat) : List Nat := blake3CV bs 0 8

def wordLEBytes (w : Nat) : List Nat :=
  [w % 256, w / 256 % 256, w / 65536 % 256, w / 16777216 % 256]

def blake3Bytes (bs : List Nat) : List Nat :=
  ((blake3Words bs).map wordLEBytes).flatten

def hexDigit (n : Nat) : Char :=
  if n < 10 then Char.ofNat (48 + n) else Char.ofNat (87 + n)

def hexOfBytes (bs : List Nat) : String :=
  String.mk ((bs.map (fun b => [hexDigit (b / 16), hexDigit (b % 16)])).flatten)

/-- UTF-8 bytes of a character (no surrogates exist in `Char`). -/
def utf8Bytes (c : Char) : List Nat :=
  let n := c.toNat
  if n < 0x80 then [n]
  else if n < 0x800 then [0xC0 + n / 64, 0x80 + n % 64]
  else if n < 0x10000 then [0xE0 + n / 4096, 0x80 + n / 64 % 64, 0x80 + n % 64]
  else [0xF0 + n / 262144, 0x80 + n / 4096 % 64, 0x80 + n / 64 % 64, 0x80 + n % 64]

def strBytes (s : String) : List Nat := (s.data.map utf8Bytes).flatten

/-- `blake3hash(s).toString('hex')`: the hex digest of a string's UTF-8
bytes. -/
def blake3hex (s : String) : String := hexOfBytes (blake3Bytes (strBytes s))

/-! ## Base64 (Node `Buffer.prototype.toString('base64')`)

Standard-alphabet base64 with `=` padding, used both by the hashing step
(`content.toString('base64')`) and by the upload payloads. -/

def b64Char (n : Nat) : Char :=
  if n < 26 then Char.ofNat (65 + n)
  else if n < 52 then Char.ofNat (97 + (n - 26))
  else if n < 62 then Char.ofNat (48 + (n - 52))
  else if n = 62 then '+'
  else '/'

def base64Chars : List Nat → List Char
  | a :: b :: c :: rest =>
    b64Char (a / 4) :: b64Char (a % 4 * 16 + b / 16) ::
      b64Char (b % 16 * 4 + c / 64) :: b64Char (c % 64) :: base64Chars rest
  | [a, b] =>
    [b64Char (a / 4), b64Char (a % 4 * 16 + b / 16), b64Char (b % 16 * 4), '=']
  | [a] => [b64Char (a / 4), b64Char (a % 4 * 16), '=', '=']
  | [] => []

/-- `buf.toString('base64')`: the base64 encoding of a byte list. -/
def base64Encode (bs : List Nat) : String := String.mk (base64Chars bs)

/-! ## Node `path.basename` / `path.extname` (posix)

`computeHashB64` derives the extension as
`extname(basename(filename)).substring(1)`. -/

def dropTrailingSlashes (l : List Char) : List Char :=
  (l.reverse.dropWhile (· = '/')).reverse

def lastSegment (l : List Char) : List Char :=
  ((l.reverse.takeWhile (· ≠ '/'))).reverse

/-- Node `path.posix.basename`: the last path component, ignoring trailing
slashes. -/
def jsBasename (s : String) : String :=
  String.mk (lastSegment (dropTrailingSlashes s.data))

/-- The index of the last `.` in a character list, if any. -/
def lastDotIdx (l : List Char) : Option Nat :=
  (l.reverse.findIdx? (· = '.')).map (fun i => l.length - 1 - i)

/-- Node `path.posix.extname` restricted to a basename (no slashes): empty
when there is no dot, when the only role of the dot is to lead a hidden
file (index 0), or for the special name `..`; otherwise the suffix from the
last dot (dot included). -/
def jsExtname (b : String) : String :=
  if b.data = ['.', '.'] then ""
  else
    match lastDotIdx b.data with
    | none => ""
    | some 0 => ""
    | some d => String.mk (b.data.drop d)

/-- The extension as `computeHashB64` uses it:
`extname(basename(filename)).substring(1)` — after the last dot of the base
name, dot removed, case preserved. -/
def jsExtOf (filename : String) : String :=
  (jsExtname (jsBasename filename)).drop 1

/-! ## The content hasher (`computeHash` / `computeHashB64`) -/

/-- `computeHashB64`: Blake3 of the base64 content concatenated with the
extension, hex encoded, first 32 hex characters. -/
def computeHashB64 (b64 filename : String) : String :=
  (blake3hex (b64 ++ jsExtOf filename)).take 32

/-- `computeHash`: hash raw content by base64-encoding it first. -/
def computeHash (content : List Nat) (filename : String) : String :=
  computeHashB64 (base64Encode content) filename


/-! ## The resilient request client (`doRequestWithRetries`)

`doRequest` either returns a parsed JSON envelope (`success:true` with a
result, or `success:false` with an error list) or throws (network failure,
or the non-JSON content-type guard).  The wrapper loops
`while (retryCount++ !== retries)`, retrying only on a thrown error, with a
backoff sleep of `Math.min(Math.pow(retryCount, 2.5), 60) * 1000`
milliseconds after every failure; exhausting the budget rethrows the last
error.  The network is an oracle: `attempts i` is the outcome of the
`i`-th (0-based) invocation of `doRequest`. -/

/-- The parsed JSON envelope of a completed request. -/
inductive ApiResult (T : Type) where
  | success (result : T)
  | failure (errors : List (Nat × String))
deriving DecidableEq, Repr

/-- The outcome of one `doRequest` invocation: a parsed envelope, or a
thrown error (network failure or the content-type guard). -/
inductive ReqOutcome (T : Type) where
  | ok (r : ApiResult T)
  | err (e : String)
deriving DecidableEq, Repr

/-- What one run of the retry wrapper did: the final outcome (`Except.error`
is a rethrow; `none` is JS `undefined` when no attempt ever ran), how many
`doRequest` invocations were made, and the 1-based attempt numbers after
which a backoff sleep happened. -/
structure RetryRun (T : Type) where
  result : Except (Option String) (ApiResult T)
  attemptsMade : Nat
  delayedAttempts : List Nat
deriving Repr

/-- The `while (retryCount++ !== retries)` loop, with `k` the current value
of `retryCount` and `retries - k` attempts left as fuel. -/
def retryGo {T : Type} (attempts : Nat → ReqOutcome T) (k : Nat)
    (lastError : Option String) : Nat → RetryRun T
  | 0 => ⟨.error lastError, 0, []⟩
  | fuel + 1 =>
    match attempts k with
    | .ok r => ⟨.ok r, 1, []⟩
    | .err e =>
      let rest := retryGo attempts (k + 1) (some e) fuel
      ⟨rest.result, rest.attemptsMade + 1, (k + 1) :: rest.delayedAttempts⟩

/-- `doRequestWithRetries` with the given attempt oracle and retry budget
(default 5 attempts total). -/
def doRequestWithRetries {T : Type} (attempts : Nat → ReqOutcome T)
    (retries : Nat := 5) : RetryRun T :=
  retryGo attempts 0 none retries

/-- The backoff sleep in milliseconds after failed attempt number `n`
(1-based): `Math.min(Math.pow(retryCount, 2.5), 60) * 1000`, read over the
reals. -/
noncomputable def backoffDelayMs (n : Nat) : ℝ :=
  min ((n : ℝ) ^ (2.5 : ℝ)) 60 * 1000

/-! ## The token cache (`JWTCache.get`)

The cache state is `none` or `some (jwt, expiryMs)`.  `get` refetches when
there is no cached token or `this.jwt.expiry < new Date()`; a fresh token's
expiry is `exp * 1000 - 60000` where `exp` comes from JSON-parsing the
base64-decoded second dot-separated token segment.  The fetch itself and
the `Buffer`/`JSON.parse` decoding are external: `fetchedJwt` is the token
the remote would return, and `decodeClaims` models
`JSON.parse(Buffer.from(seg, 'base64').toString()).exp` applied to a
segment. -/

/-- JS `str.split('.')` on characters: split at every dot, keeping empty
segments (`''.split('.')` is `['']`). -/
def splitDotChars : List Char → List (List Char)
  | [] => [[]]
  | c :: rest =>
    match splitDotChars rest with
    | s :: ss => if c = '.' then [] :: s :: ss else (c :: s) :: ss
    | [] => [[c]]

/-- JS `jwt.split('.')`. -/
def jsSplitDot (s : String) : List String := (splitDotChars s.data).map String.mk

/-- Refetch branch of `JWTCache.get`: returns the fresh token, the new
cache state with `expiry = exp * 1000 - 60000`, and the fetch flag. -/
def jwtRefresh (decodeClaims : String → Int) (fetchedJwt : String) :
    String × Option (String × Int) × Bool :=
  let exp := decodeClaims ((jsSplitDot fetchedJwt).getD 1 "")
  (fetchedJwt, some (fetchedJwt, exp * 1000 - 60000), true)

/-- `JWTCache.get` as explicit state passing: given the current time in
milliseconds and the cache state, return the token handed back, the next
state, and whether a remote fetch happened. -/
def jwtGet (decodeClaims : String → Int) (fetchedJwt : String) (now : Int)
    (st : Option (String × Int)) : String × Option (String × Int) × Bool :=
  match st with
  | none => jwtRefresh decodeClaims fetchedJwt
  | some (t, e) =>
    if e < now then jwtRefresh decodeClaims fetchedJwt
    else (t, some (t, e), false)

/-! ## The directory scan of `deployDirectory`

The recursive walk yields root-relative paths (`file.substring(base.length
+ 1)`, forward-slash separated); a path that is exactly `_headers`,
`_redirects` or `_worker.js` is captured into the matching option when that
option is JS-falsy (absent or the empty string) and skipped; every other
entry is kept as a deployable file.  The walk itself is the file-system
collaborator, so the scan takes the listed `(relativePath, content)` pairs
in walk order. -/

structure SpecialOpts where
  headers : Option String
  redirects : Option String
  worker : Option String
deriving DecidableEq, Repr

/-- JS truthiness test `!options.field` on an optional string. -/
def jsFalsy : Option String → Bool
  | none => true
  | some s => s = ""

/-- The `for await` loop of `deployDirectory`: capture special files,
collect the rest. -/
def scanDir (entries : List (String × String)) (o : SpecialOpts) :
    SpecialOpts × List (String × String) :=
  match entries with
  | [] => (o, [])
  | (rel, content) :: rest =>
    if rel = "_headers" then
      scanDir rest (if jsFalsy o.headers then { o with headers := some content } else o)
    else if rel = "_redirects" then
      scanDir rest (if jsFalsy o.redirects then { o with redirects := some content } else o)
    else if rel = "_worker.js" then
      scanDir rest (if jsFalsy o.worker then { o with worker := some content } else o)
    else
      ((scanDir rest o).1, (rel, content) :: (scanDir rest o).2)

/-- The names `scanDir` special-cases. -/
def specialNames : List String := ["_headers", "_redirects", "_worker.js"]

/-! ## The deployment orchestrator (`deployFiles`)

Remote calls are recorded as events; the `checkMissing` response is an
oracle input (`missingResp`), and the mime lookup (`getType`) is the
external collaborator `mime`.  The worker count is
`Math.min(options?.concurrency ?? 4, 1)` — at most one worker ever runs, so
the shared `hashesToUpload.pop()` queue is a sequential loop popping from
the END of the missing list; with a non-positive count the `for` loop body
never runs and nothing is uploaded.  A missing hash with no matching file
makes the worker dereference `undefined` and throw, modeled as `none`. -/

/-- A caller-supplied `DeploymentFile`: content is the materialized byte
buffer (the lazy producer is the file-system collaborator). -/
structure DFile where
  filename : String
  content : List Nat
  contentType : Option String
  hash : Option String
deriving DecidableEq, Repr

/-- A file after the hash-computing loop: `hash` is always present and
`contentBase64` is cached exactly when the loop computed the hash here. -/
structure PFile where
  filename : String
  content : List Nat
  contentType : Option String
  hash : String
  contentBase64 : Option String
deriving DecidableEq, Repr

/-- One iteration of the hash-computing loop: `if (!file.hash)` (JS-falsy,
so an empty-string hash is also recomputed) compute the fingerprint and
cache the base64 encoding on the record. -/
def hashFile (f : DFile) : PFile :=
  match f.hash with
  | some h =>
    if h = "" then
      let b64 := base64Encode f.content
      ⟨f.filename, f.content, f.contentType, computeHashB64 b64 f.filename, some b64⟩
    else ⟨f.filename, f.content, f.contentType, h, none⟩
  | none =>
    let b64 := base64Encode f.content
    ⟨f.filename, f.content, f.contentType, computeHashB64 b64 f.filename, some b64⟩

/-- The keys of `groupBy(x => x.hash)`: distinct hashes in first-occurrence
order. -/
def dedupFirst : List String → List String
  | [] => []
  | h :: t => h :: dedupFirst (t.filter (· ≠ h))
termination_by l => l.length
decreasing_by
  have := List.length_filter_le (· ≠ h) t
  simp only [List.length_cons]
  omega

/-- A remote call made during `deployFiles`, in order. -/
inductive Event where
  | checkMissing (hashes : List String)
  | upload (hash : String) (contentBase64 : String) (contentType : String)
  | upsert (hashes : List String)
  | createDeployment (manifest : List (String × String))
deriving DecidableEq, Repr

/-- `min(options?.concurrency ?? 4, 1)`. -/
def effectiveConcurrency (c : Option Int) : Int := min (c.getD 4) 1

/-- How many worker loop bodies `for (let i = 0; i < concurrency; i++)`
spawns: the clamp above, and none at all when it is non-positive. -/
def workerCount (c : Option Int) : Nat := (effectiveConcurrency c).toNat

/-- The single worker's `while (hashesToUpload.length > 0)` loop over the
queue in pop order (`toUpload` is already reversed): find the first file
with the popped hash, materialize its base64 content and content type, and
upload.  A hash with no matching file is the JS `undefined` dereference. -/
def uploadSeq (mime : String → Option String) (files : List PFile) :
    List String → Option (List Event)
  | [] => some []
  | h :: rest =>
    match files.find? (fun f => f.hash = h) with
    | none => none
    | some f =>
      let b64 := f.contentBase64.getD (base64Encode f.content)
      let ct := f.contentType.getD ((mime f.filename).getD "application/octet-stream")
      (uploadSeq mime files rest).map (Event.upload f.hash b64 ct :: ·)

/-- The distinct-fingerprint set `deployFiles` works with. -/
def pipelineKeys (files : List DFile) : List String :=
  dedupFirst ((files.map hashFile).map (·.hash))

/-- The manifest `Object.fromEntries(files.map(f => ['/' + f.filename,
f.hash]))` as an entry list. -/
def pipelineManifest (files : List DFile) : List (String × String) :=
  (files.map hashFile).map (fun f => ("/" ++ f.filename, f.hash))

/-- `deployFiles`: hash every file, group, ask `checkMissing` (response
`missingResp`), run the upload workers, `upsert` the full key set exactly
when something was missing, create the deployment, and return the
filename-to-fingerprint mapping.  `none` models the run throwing. -/
def deployFiles (mime : String → Option String) (files : List DFile)
    (concurrency : Option Int) (missingResp : List String) :
    Option (List Event × List (String × String)) :=
  let pfiles := files.map hashFile
  let keys := pipelineKeys files
  let uploads? :=
    if workerCount concurrency = 0 then some []
    else uploadSeq mime pfiles missingResp.reverse
  match uploads? with
  | none => none
  | some uploads =>
    some (Event.checkMissing keys ::
        (uploads ++ (if missingResp.isEmpty then [] else [Event.upsert keys]) ++
          [Event.createDeployment (pipelineManifest files)]),
      pfiles.map (fun f => (f.filename, f.hash)))

/-- The events of a `deployFiles` run, empty when the run threw. -/
def runEvents (r : Option (List Event × List (String × String))) : List Event :=
  (r.map Prod.fst).getD []

/-- Whether an event is a blob upload. -/
def isUpload : Event → Bool
  | .upload _ _ _ => true
  | _ => false

/-- Whether an event is a blob upload of the given fingerprint. -/
def isUploadOf (h : String) : Event → Bool
  | .upload h2 _ _ => h2 = h
  | _ => false


/-! ## Validation of the Blake3 embedding against published test vectors -/

/-- The official Blake3 digest of the empty input. -/
theorem blake3hex_empty_vector :
    blake3hex "" = "af1349b9f5f9a1a6a0404dea36dcc9499bcb25c9adc112b7cc9a93cae41f3262" := by
  decide

/-- The official Blake3 digest of `"abc"`. -/
theorem blake3hex_abc_vector :
    blake3hex "abc" = "6437b3ac38465133ffb63b75273a8db548c558465d79db03fd359c6cd5bd9d85" := by
  decide

/-! ## Claim C1: the worker count clamp -/

/-- Claim C1 (amended): the number of worker loop bodies `deployFiles`
spawns is `toNat (min (options?.concurrency ?? 4, 1))` — it is 1 when the
option is absent (default 4) or at least 1, it is 0 when the option is
non-positive, and it never exceeds 1. -/
theorem workerCount_spec :
    workerCount none = 1 ∧
      (∀ c : Int, 1 ≤ c → workerCount (some c) = 1) ∧
      (∀ c : Int, c ≤ 0 → workerCount (some c) = 0) ∧
      (∀ c : Option Int, workerCount c ≤ 1) := by
  refine ⟨rfl, fun c hc => ?_, fun c hc => ?_, fun c => ?_⟩
  · simp only [workerCount, effectiveConcurrency, Option.getD_some]
    omega
  · simp only [workerCount, effectiveConcurrency, Option.getD_some]
    omega
  · cases c <;> simp only [workerCount, effectiveConcurrency, Option.getD_some,
      Option.getD_none] <;> omega

/-- Claim C1, counterexample: with `options.concurrency = 0` the worker
count is 0, not 1, so the effective worker count is not 1 regardless of
caller input. -/
theorem workerCount_zero_counterexample :
    workerCount (some 0) = 0 ∧ ¬ workerCount (some 0) = 1 := by decide

/-- Claim C1, witness: a caller-requested concurrency of 7 still yields one
worker, and a requested concurrency of -2 yields none. -/
theorem workerCount_spec_witness :
    workerCount (some 7) = 1 ∧ workerCount (some (-2)) = 0 :=
  ⟨workerCount_spec.2.1 7 (by decide), workerCount_spec.2.2.1 (-2) (by decide)⟩

/-! ## Claim C2: the fingerprint depends on the content and extension only -/

/-- Claim C2: two filenames with the same extension (the suffix after the
last dot of the base name) give the same fingerprint for every content —
the stem and directory never enter the hash. -/
theorem hash_depends_only_on_extension (content : List Nat) (f g : String)
    (h : jsExtOf f = jsExtOf g) : computeHash content f = computeHash content g := by
  simp only [computeHash, computeHashB64, h]

/-- Claim C2, witness: `dir/a.txt` and `b.txt` share the extension `txt`,
so hashing the bytes of `"hi"` under either name agrees. -/
theorem hash_depends_only_on_extension_witness :
    jsExtOf "dir/a.txt" = jsExtOf "b.txt" ∧
      computeHash (strBytes "hi") "dir/a.txt" = computeHash (strBytes "hi") "b.txt" :=
  ⟨by decide, hash_depends_only_on_extension (strBytes "hi") "dir/a.txt" "b.txt" (by decide)⟩

/-! ## Claim C3: the extension is hashed exactly as written -/

/-- Claim C3, counterexample: the extension is not lowercased before
hashing, so `hash(content, "x.TXT")` and `hash(content, "x.txt")` differ
already at the empty content. -/
theorem hash_extension_case_counterexample :
    computeHash [] "x.TXT" ≠ computeHash [] "x.txt" := by decide

/-- Claim C3 (amended): the fingerprint is the truncated Blake3 hex digest
of the base64 content concatenated with the extension exactly as it appears
in the filename (case preserved, no normalization): `x.TXT` contributes
`TXT`, and the fingerprints of `x.TXT` and `x.txt` differ on empty
content. -/
theorem hash_uses_extension_as_given :
    (∀ b64 f : String, computeHashB64 b64 f = (blake3hex (b64 ++ jsExtOf f)).take 32) ∧
      jsExtOf "x.TXT" = "TXT" ∧
      computeHash [] "x.TXT" ≠ computeHash [] "x.txt" :=
  ⟨fun _ _ => rfl, by decide, by decide⟩

/-! ## Claim C4: special-file capture in directory mode -/

/-- The deployable list `scanDir` returns is exactly the entries whose
root-relative path is not one of the three special names — a deeper
`sub/_headers` is kept as an ordinary asset. -/
theorem scanDir_deployables (entries : List (String × String)) (o : SpecialOpts) :
    (scanDir entries o).2 = entries.filter (fun e => decide (e.1 ∉ specialNames)) := by
  induction entries generalizing o with
  | nil => rfl
  | cons e rest ih =>
    obtain ⟨rel, c⟩ := e
    by_cases h1 : rel = "_headers"
    · subst h1; simp [scanDir, specialNames, ih]
    · by_cases h2 : rel = "_redirects"
      · subst h2; simp [scanDir, specialNames, ih]
      · by_cases h3 : rel = "_worker.js"
        · subst h3; simp [scanDir, specialNames, ih]
        · simp [scanDir, specialNames, h1, h2, h3, ih]

/-- A non-falsy `headers` option survives the whole scan untouched. -/
theorem scanDir_headers_of_not_falsy (entries : List (String × String)) (o : SpecialOpts)
    (h : jsFalsy o.headers = false) : (scanDir entries o).1.headers = o.headers := by
  induction entries generalizing o h with
  | nil => rfl
  | cons e rest ih =>
    obtain ⟨rel, c⟩ := e
    by_cases h1 : rel = "_headers"
    · subst h1; simp only [scanDir, h, Bool.false_eq_true, if_false, if_true]
      exact ih o h
    · by_cases h2 : rel = "_redirects"
      · subst h2
        by_cases hf : jsFalsy o.redirects
        · simpa [scanDir, hf] using ih { o with redirects := some c } (by simpa using h)
        · simpa [scanDir, hf] using ih o h
      · by_cases h3 : rel = "_worker.js"
        · subst h3
          by_cases hf : jsFalsy o.worker
          · simpa [scanDir, hf] using ih { o with worker := some c } (by simpa using h)
          · simpa [scanDir, hf] using ih o h
        · simpa [scanDir, h1, h2, h3] using ih o h

/-- Same for `redirects`. -/
theorem scanDir_redirects_of_not_falsy (entries : List (String × String)) (o : SpecialOpts)
    (h : jsFalsy o.redirects = false) : (scanDir entries o).1.redirects = o.redirects := by
  induction entries generalizing o h with
  | nil => rfl
  | cons e rest ih =>
    obtain ⟨rel, c⟩ := e
    by_cases h1 : rel = "_headers"
    · subst h1
      by_cases hf : jsFalsy o.headers
      · simpa [scanDir, hf] using ih { o with headers := some c } (by simpa using h)
      · simpa [scanDir, hf] using ih o h
    · by_cases h2 : rel = "_redirects"
      · subst h2; simp only [scanDir, h, Bool.false_eq_true, if_false, if_true]
        exact ih o h
      · by_cases h3 : rel = "_worker.js"
        · subst h3
          by_cases hf : jsFalsy o.worker
          · simpa [scanDir, hf] using ih { o with worker := some c } (by simpa using h)
          · simpa [scanDir, hf] using ih o h
        · simpa [scanDir, h1, h2, h3] using ih o h

/-- Same for `worker`. -/
theorem scanDir_worker_of_not_falsy (entries : List (String × String)) (o : SpecialOpts)
    (h : jsFalsy o.worker = false) : (scanDir entries o).1.worker = o.worker := by
  induction entries generalizing o h with
  | nil => rfl
  | cons e rest ih =>
    obtain ⟨rel, c⟩ := e
    by_cases h1 : rel = "_headers"
    · subst h1
      by_cases hf : jsFalsy o.headers
      · simpa [scanDir, hf] using ih { o with headers := some c } (by simpa using h)
      · simpa [scanDir, hf] using ih o h
    · by_cases h2 : rel = "_redirects"
      · subst h2
        by_cases hf : jsFalsy o.redirects
        · simpa [scanDir, hf] using ih { o with redirects := some c } (by simpa using h)
        · simpa [scanDir, hf] using ih o h
      · by_cases h3 : rel = "_worker.js"
        · subst h3; simp only [scanDir, h, Bool.false_eq_true, if_false, if_true]
          exact ih o h
        · simpa [scanDir, h1, h2, h3] using ih o h

/-- When no `_headers` entry exists at the root the option is untouched. -/
theorem scanDir_headers_of_absent (entries : List (String × String)) (o : SpecialOpts)
    (h : ∀ c, ("_headers", c) ∉ entries) : (scanDir entries o).1.headers = o.headers := by
  induction entries generalizing o with
  | nil => rfl
  | cons e rest ih =>
    obtain ⟨rel, c⟩ := e
    have hrel : rel ≠ "_headers" := by
      intro hr
      exact h c (by rw [hr]; exact List.mem_cons_self _ _)
    have hrest : ∀ c2, ("_headers", c2) ∉ rest := fun c2 hm => h c2 (List.mem_cons_of_mem _ hm)
    by_cases h2 : rel = "_redirects"
    · subst h2
      by_cases hf : jsFalsy o.redirects
      · simpa [scanDir, hf] using ih { o with redirects := some c } hrest
      · simpa [scanDir, hf] using ih o hrest
    · by_cases h3 : rel = "_worker.js"
      · subst h3
        by_cases hf : jsFalsy o.worker
        · simpa [scanDir, hf] using ih { o with worker := some c } hrest
        · simpa [scanDir, hf] using ih o hrest
      · simpa [scanDir, hrel, h2, h3] using ih o hrest

/-- When the `headers` option is falsy (absent or empty) and a root-level
`_headers` entry exists, the scan captures the content of one of them. -/
theorem scanDir_headers_capture (entries : List (String × String)) (o : SpecialOpts)
    (hf : jsFalsy o.headers = true) (hm : ∃ c, ("_headers", c) ∈ entries) :
    ∃ c, ("_headers", c) ∈ entries ∧ (scanDir entries o).1.headers = some c := by
  induction entries generalizing o hf with
  | nil => exact absurd hm (by simp)
  | cons e rest ih =>
    obtain ⟨rel, c⟩ := e
    by_cases h1 : rel = "_headers"
    · subst h1
      by_cases hc : c = ""
      · by_cases hr : ∃ c2, ("_headers", c2) ∈ rest
        · obtain ⟨c3, hm3, hres⟩ := ih { o with headers := some c } (by simp [jsFalsy, hc]) hr
          exact ⟨c3, List.mem_cons_of_mem _ hm3, by simpa [scanDir, hf] using hres⟩
        · push_neg at hr
          refine ⟨c, List.mem_cons_self _ _, ?_⟩
          have hstable := scanDir_headers_of_absent rest { o with headers := some c } hr
          simpa [scanDir, hf] using hstable
      · refine ⟨c, List.mem_cons_self _ _, ?_⟩
        have hstable := scanDir_headers_of_not_falsy rest { o with headers := some c }
          (by simp [jsFalsy, hc])
        simpa [scanDir, hf] using hstable
    · have hm' : ∃ c2, ("_headers", c2) ∈ rest := by
        obtain ⟨c2, hc2⟩ := hm
        rcases List.mem_cons.mp hc2 with heq | hmem
        · exact absurd (congrArg Prod.fst heq).symm h1
        · exact ⟨c2, hmem⟩
      by_cases h2 : rel = "_redirects"
      · subst h2
        by_cases hfr : jsFalsy o.redirects
        · obtain ⟨c3, hm3, hres⟩ := ih { o with redirects := some c } (by simpa using hf) hm'
          exact ⟨c3, List.mem_cons_of_mem _ hm3, by simpa [scanDir, hfr] using hres⟩
        · obtain ⟨c3, hm3, hres⟩ := ih o hf hm'
          exact ⟨c3, List.mem_cons_of_mem _ hm3, by simpa [scanDir, hfr] using hres⟩
      · by_cases h3 : rel = "_worker.js"
        · subst h3
          by_cases hfw : jsFalsy o.worker
          · obtain ⟨c3, hm3, hres⟩ := ih { o with worker := some c } (by simpa using hf) hm'
            exact ⟨c3, List.mem_cons_of_mem _ hm3, by simpa [scanDir, hfw] using hres⟩
          · obtain ⟨c3, hm3, hres⟩ := ih o hf hm'
            exact ⟨c3, List.mem_cons_of_mem _ hm3, by simpa [scanDir, hfw] using hres⟩
        · obtain ⟨c3, hm3, hres⟩ := ih o hf hm'
          exact ⟨c3, List.mem_cons_of_mem _ hm3, by simpa [scanDir, h1, h2, h3] using hres⟩

/-- When no `_redirects` entry exists at the root the option is untouched. -/
theorem scanDir_redirects_of_absent (entries : List (String × String)) (o : SpecialOpts)
    (h : ∀ c, ("_redirects", c) ∉ entries) : (scanDir entries o).1.redirects = o.redirects := by
  induction entries generalizing o with
  | nil => rfl
  | cons e rest ih =>
    obtain ⟨rel, c⟩ := e
    have hrel : rel ≠ "_redirects" := by
      intro hr
      exact h c (by rw [hr]; exact List.mem_cons_self _ _)
    have hrest : ∀ c2, ("_redirects", c2) ∉ rest := fun c2 hm => h c2 (List.mem_cons_of_mem _ hm)
    by_cases h1 : rel = "_headers"
    · subst h1
      by_cases hf : jsFalsy o.headers
      · simpa [scanDir, hf] using ih { o with headers := some c } hrest
      · simpa [scanDir, hf] using ih o hrest
    · by_cases h3 : rel = "_worker.js"
      · subst h3
        by_cases hf : jsFalsy o.worker
        · simpa [scanDir, hf] using ih { o with worker := some c } hrest
        · simpa [scanDir, hf] using ih o hrest
      · simpa [scanDir, h1, hrel, h3] using ih o hrest

/-- When no `_worker.js` entry exists at the root the option is untouched. -/
theorem scanDir_worker_of_absent (entries : List (String × String)) (o : SpecialOpts)
    (h : ∀ c, ("_worker.js", c) ∉ entries) : (scanDir entries o).1.worker = o.worker := by
  induction entries generalizing o with
  | nil => rfl
  | cons e rest ih =>
    obtain ⟨rel, c⟩ := e
    have hrel : rel ≠ "_worker.js" := by
      intro hr
      exact h c (by rw [hr]; exact List.mem_cons_self _ _)
    have hrest : ∀ c2, ("_worker.js", c2) ∉ rest := fun c2 hm => h c2 (List.mem_cons_of_mem _ hm)
    by_cases h1 : rel = "_headers"
    · subst h1
      by_cases hf : jsFalsy o.headers
      · simpa [scanDir, hf] using ih { o with headers := some c } hrest
      · simpa [scanDir, hf] using ih o hrest
    · by_cases h2 : rel = "_redirects"
      · subst h2
        by_cases hf : jsFalsy o.redirects
        · simpa [scanDir, hf] using ih { o with redirects := some c } hrest
        · simpa [scanDir, hf] using ih o hrest
      · simpa [scanDir, h1, h2, hrel] using ih o hrest

/-- Capture for `redirects`, as for `headers`. -/
theorem scanDir_redirects_capture (entries : List (String × String)) (o : SpecialOpts)
    (hf : jsFalsy o.redirects = true) (hm : ∃ c, ("_redirects", c) ∈ entries) :
    ∃ c, ("_redirects", c) ∈ entries ∧ (scanDir entries o).1.redirects = some c := by
  induction entries generalizing o hf with
  | nil => exact absurd hm (by simp)
  | cons e rest ih =>
    obtain ⟨rel, c⟩ := e
    by_cases h2 : rel = "_redirects"
    · subst h2
      by_cases hc : c = ""
      · by_cases hr : ∃ c2, ("_redirects", c2) ∈ rest
        · obtain ⟨c3, hm3, hres⟩ := ih { o with redirects := some c } (by simp [jsFalsy, hc]) hr
          exact ⟨c3, List.mem_cons_of_mem _ hm3, by simpa [scanDir, hf] using hres⟩
        · push_neg at hr
          refine ⟨c, List.mem_cons_self _ _, ?_⟩
          have hstable := scanDir_redirects_of_absent rest { o with redirects := some c } hr
          simpa [scanDir, hf] using hstable
      · refine ⟨c, List.mem_cons_self _ _, ?_⟩
        have hstable := scanDir_redirects_of_not_falsy rest { o with redirects := some c }
          (by simp [jsFalsy, hc])
        simpa [scanDir, hf] using hstable
    · have hm' : ∃ c2, ("_redirects", c2) ∈ rest := by
        obtain ⟨c2, hc2⟩ := hm
        rcases List.mem_cons.mp hc2 with heq | hmem
        · exact absurd (congrArg Prod.fst heq).symm h2
        · exact ⟨c2, hmem⟩
      by_cases h1 : rel = "_headers"
      · subst h1
        by_cases hfh : jsFalsy o.headers
        · obtain ⟨c3, hm3, hres⟩ := ih { o with headers := some c } (by simpa using hf) hm'
          exact ⟨c3, List.mem_cons_of_mem _ hm3, by simpa [scanDir, hfh] using hres⟩
        · obtain ⟨c3, hm3, hres⟩ := ih o hf hm'
          exact ⟨c3, List.mem_cons_of_mem _ hm3, by simpa [scanDir, hfh] using hres⟩
      · by_cases h3 : rel = "_worker.js"
        · subst h3
          by_cases hfw : jsFalsy o.worker
          · obtain ⟨c3, hm3, hres⟩ := ih { o with worker := some c } (by simpa using hf) hm'
            exact ⟨c3, List.mem_cons_of_mem _ hm3, by simpa [scanDir, hfw] using hres⟩
          · obtain ⟨c3, hm3, hres⟩ := ih o hf hm'
            exact ⟨c3, List.mem_cons_of_mem _ hm3, by simpa [scanDir, hfw] using hres⟩
        · obtain ⟨c3, hm3, hres⟩ := ih o hf hm'
          exact ⟨c3, List.mem_cons_of_mem _ hm3, by simpa [scanDir, h1, h2, h3] using hres⟩

/-- Capture for `worker`, as for `headers`. -/
theorem scanDir_worker_capture (entries : List (String × String)) (o : SpecialOpts)
    (hf : jsFalsy o.worker = true) (hm : ∃ c, ("_worker.js", c) ∈ entries) :
    ∃ c, ("_worker.js", c) ∈ entries ∧ (scanDir entries o).1.worker = some c := by
  induction entries generalizing o hf with
  | nil => exact absurd hm (by simp)
  | cons e rest ih =>
    obtain ⟨rel, c⟩ := e
    by_cases h3 : rel = "_worker.js"
    · subst h3
      by_cases hc : c = ""
      · by_cases hr : ∃ c2, ("_worker.js", c2) ∈ rest
        · obtain ⟨c3, hm3, hres⟩ := ih { o with worker := some c } (by simp [jsFalsy, hc]) hr
          exact ⟨c3, List.mem_cons_of_mem _ hm3, by simpa [scanDir, hf] using hres⟩
        · push_neg at hr
          refine ⟨c, List.mem_cons_self _ _, ?_⟩
          have hstable := scanDir_worker_of_absent rest { o with worker := some c } hr
          simpa [scanDir, hf] using hstable
      · refine ⟨c, List.mem_cons_self _ _, ?_⟩
        have hstable := scanDir_worker_of_not_falsy rest { o with worker := some c }
          (by simp [jsFalsy, hc])
        simpa [scanDir, hf] using hstable
    · have hm' : ∃ c2, ("_worker.js", c2) ∈ rest := by
        obtain ⟨c2, hc2⟩ := hm
        rcases List.mem_cons.mp hc2 with heq | hmem
        · exact absurd (congrArg Prod.fst heq).symm h3
        · exact ⟨c2, hmem⟩
      by_cases h1 : rel = "_headers"
      · subst h1
        by_cases hfh : jsFalsy o.headers
        · obtain ⟨c3, hm3, hres⟩ := ih { o with headers := some c } (by simpa using hf) hm'
          exact ⟨c3, List.mem_cons_of_mem _ hm3, by simpa [scanDir, hfh] using hres⟩
        · obtain ⟨c3, hm3, hres⟩ := ih o hf hm'
          exact ⟨c3, List.mem_cons_of_mem _ hm3, by simpa [scanDir, hfh] using hres⟩
      · by_cases h2 : rel = "_redirects"
        · subst h2
          by_cases hfr : jsFalsy o.redirects
          · obtain ⟨c3, hm3, hres⟩ := ih { o with redirects := some c } (by simpa using hf) hm'
            exact ⟨c3, List.mem_cons_of_mem _ hm3, by simpa [scanDir, hfr] using hres⟩
          · obtain ⟨c3, hm3, hres⟩ := ih o hf hm'
            exact ⟨c3, List.mem_cons_of_mem _ hm3, by simpa [scanDir, hfr] using hres⟩
        · obtain ⟨c3, hm3, hres⟩ := ih o hf hm'
          exact ⟨c3, List.mem_cons_of_mem _ hm3, by simpa [scanDir, h1, h2, h3] using hres⟩

/-- Claim C4 (amended): only files whose root-relative path is exactly
`_headers`, `_redirects` or `_worker.js` — i.e. directly at the root, not
at deeper levels — are excluded from the deployable list; a non-empty
caller-supplied option value is never overridden by a discovered file (an
empty-string option behaves like an absent one); and when the option is
absent or empty a discovered root-level special file's content is captured
into it. -/
theorem scanDir_spec (entries : List (String × String)) (o : SpecialOpts) :
    ((scanDir entries o).2 = entries.filter (fun e => decide (e.1 ∉ specialNames))) ∧
      (jsFalsy o.headers = false → (scanDir entries o).1.headers = o.headers) ∧
      (jsFalsy o.redirects = false → (scanDir entries o).1.redirects = o.redirects) ∧
      (jsFalsy o.worker = false → (scanDir entries o).1.worker = o.worker) ∧
      (jsFalsy o.headers = true → (∃ c, ("_headers", c) ∈ entries) →
        ∃ c, ("_headers", c) ∈ entries ∧ (scanDir entries o).1.headers = some c) ∧
      (jsFalsy o.redirects = true → (∃ c, ("_redirects", c) ∈ entries) →
        ∃ c, ("_redirects", c) ∈ entries ∧ (scanDir entries o).1.redirects = some c) ∧
      (jsFalsy o.worker = true → (∃ c, ("_worker.js", c) ∈ entries) →
        ∃ c, ("_worker.js", c) ∈ entries ∧ (scanDir entries o).1.worker = some c) :=
  ⟨scanDir_deployables entries o,
   scanDir_headers_of_not_falsy entries o,
   scanDir_redirects_of_not_falsy entries o,
   scanDir_worker_of_not_falsy entries o,
   scanDir_headers_capture entries o,
   scanDir_redirects_capture entries o,
   scanDir_worker_capture entries o⟩

/-- Claim C4, counterexample: a `_headers` file one directory below the
root is neither captured into the option nor excluded from the deployable
list, so "at any depth" fails. -/
theorem scanDir_depth_counterexample :
    (scanDir [("sub/_headers", "H")] ⟨none, none, none⟩).2 = [("sub/_headers", "H")] ∧
      (scanDir [("sub/_headers", "H")] ⟨none, none, none⟩).1.headers = none := by decide

/-- Claim C4, witness: with a caller-supplied `headers` value the root
`_headers` file is still excluded from the deployables but does not
override the option; with no caller value the discovered content is
captured. -/
theorem scanDir_spec_witness :
    (scanDir [("_headers", "A"), ("x.txt", "B")] ⟨some "Y", none, none⟩).2 = [("x.txt", "B")] ∧
      (scanDir [("_headers", "A"), ("x.txt", "B")] ⟨some "Y", none, none⟩).1.headers = some "Y" ∧
      (scanDir [("_headers", "A")] ⟨none, none, none⟩).1.headers = some "A" := by
  refine ⟨?_, ?_, ?_⟩
  · rw [(scanDir_spec [("_headers", "A"), ("x.txt", "B")] ⟨some "Y", none, none⟩).1]
    decide
  · exact (scanDir_spec [("_headers", "A"), ("x.txt", "B")] ⟨some "Y", none, none⟩).2.1 (by decide)
  · obtain ⟨c, hc, hres⟩ := (scanDir_spec [("_headers", "A")] ⟨none, none, none⟩).2.2.2.2.1
      (by decide) ⟨"A", by decide⟩
    simp only [List.mem_singleton, Prod.mk.injEq, true_and] at hc
    rw [hres, hc]

/-! ## Claim C5: retry only on thrown errors, 5 attempts total -/

/-- Claim C5: the retry wrapper re-invokes the request only when it throws,
up to 5 attempts total by default: failing 4 times then succeeding on the
5th returns the successful result after exactly 5 invocations; failing on
all 5 attempts rethrows the 5th error with no 6th invocation; a well-formed
`success:false` envelope is returned to the caller from the first
invocation with no retry. -/
theorem retry_behavior {T : Type} :
    (∀ (attempts : Nat → ReqOutcome T) (r : ApiResult T),
      (∀ i, i < 4 → ∃ e, attempts i = .err e) → attempts 4 = .ok r →
        (doRequestWithRetries attempts 5).result = .ok r ∧
          (doRequestWithRetries attempts 5).attemptsMade = 5) ∧
      (∀ (attempts : Nat → ReqOutcome T) (e : String),
        (∀ i, i < 4 → ∃ e2, attempts i = .err e2) → attempts 4 = .err e →
          (doRequestWithRetries attempts 5).result = .error (some e) ∧
            (doRequestWithRetries attempts 5).attemptsMade = 5) ∧
      (∀ (attempts : Nat → ReqOutcome T) (errs : List (Nat × String)),
        attempts 0 = .ok (.failure errs) →
          (doRequestWithRetries attempts 5).result = .ok (.failure errs) ∧
            (doRequestWithRetries attempts 5).attemptsMade = 1) := by
  refine ⟨?_, ?_, ?_⟩
  · intro attempts r h h4
    obtain ⟨e0, h0⟩ := h 0 (by omega)
    obtain ⟨e1, h1⟩ := h 1 (by omega)
    obtain ⟨e2, h2⟩ := h 2 (by omega)
    obtain ⟨e3, h3⟩ := h 3 (by omega)
    constructor <;>
      simp [doRequestWithRetries, retryGo, h0, h1, h2, h3, h4]
  · intro attempts e h h4
    obtain ⟨e0, h0⟩ := h 0 (by omega)
    obtain ⟨e1, h1⟩ := h 1 (by omega)
    obtain ⟨e2, h2⟩ := h 2 (by omega)
    obtain ⟨e3, h3⟩ := h 3 (by omega)
    constructor <;>
      simp [doRequestWithRetries, retryGo, h0, h1, h2, h3, h4]
  · intro attempts errs h0
    constructor <;> simp [doRequestWithRetries, retryGo, h0]

/-- Attempt oracle failing four times then succeeding. -/
def c5AttemptsFailThenOk : Nat → ReqOutcome Nat := fun i =>
  if i < 4 then .err "netfail" else .ok (.success 42)

/-- Attempt oracle failing every time, with distinct error messages. -/
def c5AttemptsAllFail : Nat → ReqOutcome Nat := fun i =>
  .err (["e0", "e1", "e2", "e3", "e4"].getD i "e")

/-- Attempt oracle returning a well-formed API failure envelope. -/
def c5AttemptsApiError : Nat → ReqOutcome Nat := fun _ =>
  .ok (.failure [(1000, "bad")])

/-- Claim C5, witness: the three scenarios at concrete attempt oracles. -/
theorem retry_behavior_witness :
    ((doRequestWithRetries c5AttemptsFailThenOk 5).result = .ok (.success 42) ∧
      (doRequestWithRetries c5AttemptsFailThenOk 5).attemptsMade = 5) ∧
      ((doRequestWithRetries c5AttemptsAllFail 5).result = .error (some "e4") ∧
        (doRequestWithRetries c5AttemptsAllFail 5).attemptsMade = 5) ∧
      ((doRequestWithRetries c5AttemptsApiError 5).result = .ok (.failure [(1000, "bad")]) ∧
        (doRequestWithRetries c5AttemptsApiError 5).attemptsMade = 1) :=
  ⟨retry_behavior.1 c5AttemptsFailThenOk (.success 42)
      (fun i hi => ⟨"netfail", by simp [c5AttemptsFailThenOk, hi]⟩)
      (by simp [c5AttemptsFailThenOk]),
   retry_behavior.2.1 c5AttemptsAllFail "e4"
      (fun i hi => ⟨["e0", "e1", "e2", "e3", "e4"].getD i "e", rfl⟩)
      (by simp [c5AttemptsAllFail]),
   retry_behavior.2.2 c5AttemptsApiError [(1000, "bad")] rfl⟩

/-! ## Claim C6: the backoff schedule -/

/-- The failed-attempt numbers a retry run records are consecutive from
`k + 1`: the `i`-th backoff sleep (1-based) belongs to attempt number
`i`. -/
theorem retryGo_delayedAttempts {T : Type} (attempts : Nat → ReqOutcome T) (k : Nat)
    (le : Option String) (fuel : Nat) :
    ∃ m, m ≤ fuel ∧ (retryGo attempts k le fuel).delayedAttempts = List.range' (k + 1) m := by
  induction fuel generalizing k le with
  | zero => exact ⟨0, le_rfl, rfl⟩
  | succ n ih =>
    cases h : attempts k with
    | ok r => exact ⟨0, by omega, by simp [retryGo, h]⟩
    | err e =>
      obtain ⟨m, hm, hd⟩ := ih (k + 1) (some e)
      exact ⟨m + 1, by omega, by simp [retryGo, h, hd, List.range'_succ]⟩

/-- Claim C6: the backoff delay after failed attempt `n` (1-based) is
exactly `min(n^2.5, 60) * 1000` milliseconds; a run's recorded failed
attempts are numbered `1, 2, ...` in order, so the `i`-th sleep is
`backoffDelayMs i`; the delays grow monotonically and are capped at 60000
milliseconds (reached from attempt 6 on). -/
theorem backoff_spec :
    (∀ n : Nat, backoffDelayMs n = min ((n : ℝ) ^ (2.5 : ℝ)) 60 * 1000) ∧
      (∀ {T : Type} (attempts : Nat → ReqOutcome T) (retries : Nat),
        ∃ m, m ≤ retries ∧
          (doRequestWithRetries attempts retries).delayedAttempts = List.range' 1 m) ∧
      (∀ m n : Nat, m ≤ n → backoffDelayMs m ≤ backoffDelayMs n) ∧
      (∀ n : Nat, backoffDelayMs n ≤ 60000) ∧
      (∀ n : Nat, 6 ≤ n → backoffDelayMs n = 60000) := by
  have hrpow6 : (60 : ℝ) ≤ (6 : ℝ) ^ (2.5 : ℝ) := by
    have e1 : (6 : ℝ) ^ (2.5 : ℝ) = (6 : ℝ) ^ (2 : ℝ) * (6 : ℝ) ^ (0.5 : ℝ) := by
      rw [← Real.rpow_add (by norm_num)]
      norm_num
    have e2 : (6 : ℝ) ^ (2 : ℝ) = 36 := by
      rw [show (2 : ℝ) = ((2 : ℕ) : ℝ) by norm_num, Real.rpow_natCast]
      norm_num
    have e3 : (2 : ℝ) ≤ (6 : ℝ) ^ (0.5 : ℝ) := by
      rw [show (0.5 : ℝ) = 1 / 2 by norm_num, ← Real.sqrt_eq_rpow]
      have h4 : (2 : ℝ) = Real.sqrt 4 := by
        rw [show (4 : ℝ) = 2 ^ 2 by norm_num, Real.sqrt_sq (by norm_num)]
      rw [h4]
      exact Real.sqrt_le_sqrt (by norm_num)
    calc (60 : ℝ) ≤ 36 * 2 := by norm_num
      _ ≤ 36 * ((6 : ℝ) ^ (0.5 : ℝ)) := by nlinarith [e3]
      _ = (6 : ℝ) ^ (2.5 : ℝ) := by rw [e1, e2]
  refine ⟨fun _ => rfl, ?_, ?_, ?_, ?_⟩
  · intro T attempts retries
    exact retryGo_delayedAttempts attempts 0 none retries
  · intro m n h
    unfold backoffDelayMs
    have h1 : ((m : ℝ)) ^ (2.5 : ℝ) ≤ ((n : ℝ)) ^ (2.5 : ℝ) :=
      Real.rpow_le_rpow (by positivity) (by exact_mod_cast h) (by norm_num)
    exact mul_le_mul_of_nonneg_right (min_le_min h1 le_rfl) (by norm_num)
  · intro n
    unfold backoffDelayMs
    calc min ((n : ℝ) ^ (2.5 : ℝ)) 60 * 1000 ≤ 60 * 1000 :=
      mul_le_mul_of_nonneg_right (min_le_right _ _) (by norm_num)
      _ = 60000 := by norm_num
  · intro n hn
    have h1 : (6 : ℝ) ^ (2.5 : ℝ) ≤ ((n : ℝ)) ^ (2.5 : ℝ) :=
      Real.rpow_le_rpow (by norm_num) (by exact_mod_cast hn) (by norm_num)
    unfold backoffDelayMs
    rw [min_eq_right (le_trans hrpow6 h1)]
    norm_num

/-- Claim C6, witness: the monotone and cap parts at concrete attempt
numbers. -/
theorem backoff_spec_witness :
    backoffDelayMs 2 ≤ backoffDelayMs 5 ∧ backoffDelayMs 10 = 60000 :=
  ⟨backoff_spec.2.2.1 2 5 (by norm_num), backoff_spec.2.2.2.2 10 (by norm_num)⟩

/-! ## Claim C7: the token cache -/

/-- Claim C7 (amended): on `get`, when no token is cached or the cached
expiry is strictly before the current time, a fresh token is fetched and
stored with expiry `exp * 1000 - 60000` milliseconds (with `exp` decoded
from the second dot-separated token segment); otherwise — including when
the expiry equals the current time exactly — the cached token is returned
unchanged with no remote call. -/
theorem jwtGet_spec (decodeClaims : String → Int) (fetchedJwt : String) (now : Int) :
    (jwtGet decodeClaims fetchedJwt now none =
      (fetchedJwt, some (fetchedJwt,
        decodeClaims ((jsSplitDot fetchedJwt).getD 1 "") * 1000 - 60000), true)) ∧
      (∀ t e, e < now → jwtGet decodeClaims fetchedJwt now (some (t, e)) =
        (fetchedJwt, some (fetchedJwt,
          decodeClaims ((jsSplitDot fetchedJwt).getD 1 "") * 1000 - 60000), true)) ∧
      (∀ t e, now ≤ e → jwtGet decodeClaims fetchedJwt now (some (t, e)) =
        (t, some (t, e), false)) := by
  refine ⟨rfl, fun t e h => ?_, fun t e h => ?_⟩
  · simp [jwtGet, jwtRefresh, h]
  · simp [jwtGet, not_lt.mpr h]

/-- Claim C7, counterexample: a cached token whose expiry equals the
current time is returned unchanged and no fetch happens, although the
claim demands a fresh fetch when the expiry is at (not only before) the
current time. -/
theorem jwtGet_at_expiry_counterexample :
    jwtGet (fun _ => 0) "a.b.c" 1000 (some ("tok", 1000)) =
      ("tok", some ("tok", 1000), false) := by decide

/-- Concrete stand-in for `JSON.parse(segment).exp`. -/
def c7Decode : String → Int := fun s => if s = "claims" then 100 else 0

/-- Claim C7, witness: an empty cache fetches and stores
`100 * 1000 - 60000 = 40000`; an expired cache refetches; a cache expiring
strictly after now is returned unchanged. -/
theorem jwtGet_spec_witness :
    jwtGet c7Decode "head.claims.sig" 7 none =
      ("head.claims.sig", some ("head.claims.sig", 40000), true) ∧
      jwtGet c7Decode "head.claims.sig" 50000 (some ("old", 49999)) =
        ("head.claims.sig", some ("head.claims.sig", 40000), true) ∧
      jwtGet c7Decode "head.claims.sig" 40000 (some ("old", 40000)) =
        ("old", some ("old", 40000), false) := by
  refine ⟨?_, ?_, ?_⟩
  · rw [(jwtGet_spec c7Decode "head.claims.sig" 7).1]
    rfl
  · rw [(jwtGet_spec c7Decode "head.claims.sig" 50000).2.1 "old" 49999 (by norm_num)]
    rfl
  · exact (jwtGet_spec c7Decode "head.claims.sig" 40000).2.2 "old" 40000 (by norm_num)

/-! ## Structure of a completed `deployFiles` run -/

/-- Destructor for a successful upload step. -/
theorem uploadSeq_cons (mime : String → Option String) (files : List PFile)
    (hd : String) (tl : List String) (u : List Event)
    (h : uploadSeq mime files (hd :: tl) = some u) :
    ∃ f u2, files.find? (fun f => f.hash = hd) = some f ∧
      uploadSeq mime files tl = some u2 ∧
      u = Event.upload f.hash (f.contentBase64.getD (base64Encode f.content))
        (f.contentType.getD ((mime f.filename).getD "application/octet-stream")) :: u2 := by
  simp only [uploadSeq] at h
  cases hf : files.find? (fun f => f.hash = hd) with
  | none => rw [hf] at h; cases h
  | some f =>
    rw [hf] at h
    cases hrec : uploadSeq mime files tl with
    | none => rw [hrec] at h; cases h
    | some u2 =>
      rw [hrec] at h
      simp only [Option.map_some', Option.some.injEq] at h
      exact ⟨f, u2, rfl, rfl, h.symm⟩

/-- Every event the worker loop produces is an upload. -/
theorem uploadSeq_all_uploads (mime : String → Option String) (files : List PFile)
    (l : List String) (u : List Event) (h : uploadSeq mime files l = some u) :
    ∀ e ∈ u, isUpload e = true := by
  induction l generalizing u with
  | nil =>
    simp only [uploadSeq, Option.some.injEq] at h
    subst h
    simp
  | cons hd tl ih =>
    obtain ⟨f, u2, _, hrec, hu⟩ := uploadSeq_cons mime files hd tl u h
    subst hu
    intro e he
    rcases List.mem_cons.mp he with rfl | he2
    · rfl
    · exact ih u2 hrec e he2

/-- The worker loop uploads once per queue element. -/
theorem uploadSeq_length (mime : String → Option String) (files : List PFile)
    (l : List String) (u : List Event) (h : uploadSeq mime files l = some u) :
    u.length = l.length := by
  induction l generalizing u with
  | nil =>
    simp only [uploadSeq, Option.some.injEq] at h
    subst h
    rfl
  | cons hd tl ih =>
    obtain ⟨f, u2, _, hrec, hu⟩ := uploadSeq_cons mime files hd tl u h
    subst hu
    simp [ih u2 hrec]

/-- Uploads of one fingerprint happen exactly as often as the queue holds
that fingerprint. -/
theorem uploadSeq_countP_hash (mime : String → Option String) (files : List PFile)
    (l : List String) (u : List Event) (h : uploadSeq mime files l = some u)
    (hs : String) :
    u.countP (isUploadOf hs) = l.countP (fun x => decide (x = hs)) := by
  induction l generalizing u with
  | nil =>
    simp only [uploadSeq, Option.some.injEq] at h
    subst h
    rfl
  | cons hd tl ih =>
    obtain ⟨f, u2, hfind, hrec, hu⟩ := uploadSeq_cons mime files hd tl u h
    subst hu
    have hfh : f.hash = hd := by simpa using List.find?_some hfind
    rw [List.countP_cons, List.countP_cons, ih u2 hrec]
    simp [isUploadOf, hfh]

/-- The shape of every completed run: the check, then the uploads, then
the conditional upsert, then the deployment creation. -/
theorem deployFiles_shape (mime : String → Option String) (files : List DFile)
    (c : Option Int) (missing : List String) (ev : List Event)
    (res : List (String × String))
    (h : deployFiles mime files c missing = some (ev, res)) :
    ∃ uploads,
      (if workerCount c = 0 then some []
        else uploadSeq mime (files.map hashFile) missing.reverse) = some uploads ∧
      ev = Event.checkMissing (pipelineKeys files) ::
        (uploads ++ (if missing.isEmpty then [] else [Event.upsert (pipelineKeys files)]) ++
          [Event.createDeployment (pipelineManifest files)]) ∧
      res = (files.map hashFile).map (fun f => (f.filename, f.hash)) := by
  simp only [deployFiles] at h
  cases hu : (if workerCount c = 0 then some ([] : List Event)
      else uploadSeq mime (files.map hashFile) missing.reverse) with
  | none => rw [hu] at h; cases h
  | some u =>
    rw [hu] at h
    simp only [Option.some.injEq, Prod.mk.injEq] at h
    exact ⟨u, rfl, h.1.symm, h.2.symm⟩

/-! ## Claim C8: upsert exactly when something was missing -/

/-- Claim C8: in every completed `deployFiles` run, the upsert call happens
exactly when `checkMissing` returned a non-empty missing set; when it
happens it is passed the full distinct-fingerprint key set of all input
files (never the missing subset); and it comes after the whole upload
phase (the run splits into a prefix with no upsert and a suffix with no
upload). -/
theorem deployFiles_upsert_spec (mime : String → Option String) (files : List DFile)
    (c : Option Int) (missing : List String) (ev : List Event)
    (res : List (String × String))
    (h : deployFiles mime files c missing = some (ev, res)) :
    (Event.upsert (pipelineKeys files) ∈ ev ↔ missing ≠ []) ∧
      (∀ hs, Event.upsert hs ∈ ev → hs = pipelineKeys files) ∧
      (∃ pre post, ev = pre ++ post ∧ (∀ hs, Event.upsert hs ∉ pre) ∧
        (∀ e ∈ post, isUpload e = false)) := by
  obtain ⟨uploads, hu, hev, _⟩ := deployFiles_shape mime files c missing ev res h
  have hupl : ∀ e ∈ uploads, isUpload e = true := by
    by_cases hw : workerCount c = 0
    · rw [if_pos hw] at hu
      simp only [Option.some.injEq] at hu
      subst hu
      simp
    · rw [if_neg hw] at hu
      exact uploadSeq_all_uploads _ _ _ _ hu
  have hmem_iff : ∀ hs, Event.upsert hs ∈ ev ↔
      Event.upsert hs ∈ (if missing.isEmpty then ([] : List Event)
        else [Event.upsert (pipelineKeys files)]) := by
    intro hs
    subst hev
    constructor
    · intro hmem
      rcases List.mem_cons.mp hmem with heq | hmem2
      · exact Event.noConfusion heq
      rcases List.mem_append.mp hmem2 with hin | hin
      · rcases List.mem_append.mp hin with hin2 | hin2
        · exact absurd (hupl _ hin2) (by simp [isUpload])
        · exact hin2
      · rw [List.mem_singleton] at hin
        exact Event.noConfusion hin
    · intro hin
      exact List.mem_cons_of_mem _
        (List.mem_append.mpr (Or.inl (List.mem_append.mpr (Or.inr hin))))
  refine ⟨?_, ?_, ?_⟩
  · rw [hmem_iff]
    cases missing with
    | nil => simp
    | cons hd tl => simp
  · intro hs hmem
    rw [hmem_iff] at hmem
    cases missing with
    | nil => simp at hmem
    | cons hd tl => simpa using hmem
  · refine ⟨Event.checkMissing (pipelineKeys files) :: uploads,
      (if missing.isEmpty then [] else [Event.upsert (pipelineKeys files)]) ++
        [Event.createDeployment (pipelineManifest files)], ?_, ?_, ?_⟩
    · rw [hev]; simp
    · intro hs hmem
      rcases List.mem_cons.mp hmem with heq | hin
      · exact Event.noConfusion heq
      · exact absurd (hupl _ hin) (by simp [isUpload])
    · intro e he
      rcases List.mem_append.mp he with hin | hin
      · cases missing with
        | nil => simp at hin
        | cons hd tl =>
          simp only [List.isEmpty_cons, Bool.false_eq_true, if_false,
            List.mem_singleton] at hin
          subst hin
          rfl
      · rw [List.mem_singleton] at hin
        subst hin
        rfl

/-! ## Claim C9: one upload per missing fingerprint -/

/-- Nodup lists count a member exactly once. -/
theorem countP_decide_eq_one_of_nodup {l : List String} {a : String}
    (hnd : l.Nodup) (hm : a ∈ l) : l.countP (fun x => decide (x = a)) = 1 := by
  induction l with
  | nil => cases hm
  | cons hd tl ih =>
    rw [List.countP_cons]
    rcases List.mem_cons.mp hm with rfl | hm2
    · have h0 : tl.countP (fun x => decide (x = a)) = 0 :=
        List.countP_eq_zero.mpr (fun x hx => by
          simp only [decide_eq_true_eq]
          exact fun heq => (List.nodup_cons.mp hnd).1 (heq ▸ hx))
      simp [h0]
    · have hne : hd ≠ a := fun heq => (List.nodup_cons.mp hnd).1 (heq ▸ hm2)
      simp [ih (List.nodup_cons.mp hnd).2 hm2, hne]

/-- Claim C9 (amended): in every completed `deployFiles` run whose
effective worker count is nonzero (`options.concurrency` absent or at
least 1) and whose `checkMissing` response is duplicate-free, the number
of upload events equals the number of missing fingerprints, every missing
fingerprint is uploaded exactly once and no other fingerprint is uploaded,
and at least one upload happens whenever something was missing. -/
theorem deployFiles_upload_counts (mime : String → Option String) (files : List DFile)
    (c : Option Int) (missing : List String) (ev : List Event)
    (res : List (String × String))
    (h : deployFiles mime files c missing = some (ev, res))
    (hw : 1 ≤ c.getD 4) (hnd : missing.Nodup) :
    ev.countP isUpload = missing.length ∧
      (∀ hs ∈ missing, ev.countP (isUploadOf hs) = 1) ∧
      (∀ hs, hs ∉ missing → ev.countP (isUploadOf hs) = 0) ∧
      (missing ≠ [] → 0 < ev.countP isUpload) := by
  obtain ⟨uploads, hu, hev, _⟩ := deployFiles_shape mime files c missing ev res h
  have hwc : ¬ workerCount c = 0 := by
    have he1 : effectiveConcurrency c = 1 := by
      unfold effectiveConcurrency
      omega
    simp [workerCount, he1]
  rw [if_neg hwc] at hu
  have hcons : ∀ p : Event → Bool,
      p (Event.checkMissing (pipelineKeys files)) = false →
      p (Event.upsert (pipelineKeys files)) = false →
      p (Event.createDeployment (pipelineManifest files)) = false →
      ev.countP p = uploads.countP p := by
    intro p h1 h2 h3
    subst hev
    rw [List.countP_cons, List.countP_append, List.countP_append]
    cases missing with
    | nil => simp [h1, h2, h3]
    | cons hd tl => simp [h1, h2, h3, List.countP_cons]
  have hall : uploads.countP isUpload = uploads.length :=
    List.countP_eq_length.mpr (uploadSeq_all_uploads _ _ _ _ hu)
  have hlen : uploads.length = missing.length := by
    rw [uploadSeq_length _ _ _ _ hu, List.length_reverse]
  have htotal : ev.countP isUpload = missing.length := by
    rw [hcons isUpload rfl rfl rfl, hall, hlen]
  have hhash : ∀ hs, ev.countP (isUploadOf hs) =
      missing.countP (fun x => decide (x = hs)) := by
    intro hs
    rw [hcons (isUploadOf hs) rfl rfl rfl, uploadSeq_countP_hash _ _ _ _ hu hs,
      List.countP_reverse]
  refine ⟨htotal, ?_, ?_, ?_⟩
  · intro hs hm
    rw [hhash hs]
    exact countP_decide_eq_one_of_nodup hnd hm
  · intro hs hm
    rw [hhash hs]
    exact List.countP_eq_zero.mpr (fun x hx => by
      simp only [decide_eq_true_eq]
      exact fun heq => hm (heq ▸ hx))
  · intro hne
    rw [htotal]
    cases missing with
    | nil => exact absurd rfl hne
    | cons hd tl => simp

/-- A one-file deployment scenario used by the concrete-run theorems. -/
def cxFiles : List DFile := [⟨"index.html", strBytes "hi", none, none⟩]

/-- The `checkMissing` response reporting that one file missing. -/
def cxMissing : List String := [computeHash (strBytes "hi") "index.html"]

/-- A mime collaborator with no opinion. -/
def cxMime : String → Option String := fun _ => none

/-- Claim C9, counterexample: with `options.concurrency = 0` the run still
completes and the missing set is non-empty, yet not a single upload event
happens — "never zero when missing is non-empty" fails. -/
theorem deployFiles_zero_uploads_counterexample :
    (deployFiles cxMime cxFiles (some 0) cxMissing).isSome = true ∧
      cxMissing ≠ [] ∧
      (runEvents (deployFiles cxMime cxFiles (some 0) cxMissing)).countP isUpload = 0 := by
  refine ⟨?_, ?_, ?_⟩ <;> decide

/-- Claim C9, witness: the default-options run of the one-file scenario
has exactly one upload event. -/
theorem deployFiles_upload_counts_witness :
    (runEvents (deployFiles cxMime cxFiles none cxMissing)).countP isUpload = 1 := by
  cases hrun : deployFiles cxMime cxFiles none cxMissing with
  | none => exact absurd hrun (by decide)
  | some pr =>
    obtain ⟨ev, res⟩ := pr
    have h := deployFiles_upload_counts cxMime cxFiles none cxMissing ev res hrun
      (by norm_num) (by decide)
    have := h.1
    simp only [runEvents, hrun, Option.map_some', Option.getD_some]
    rw [this]
    rfl

/-- Claim C8, witness: the default-options run of the one-file scenario
contains the upsert of the full key set. -/
theorem deployFiles_upsert_spec_witness :
    Event.upsert (pipelineKeys cxFiles) ∈
      runEvents (deployFiles cxMime cxFiles none cxMissing) := by
  cases hrun : deployFiles cxMime cxFiles none cxMissing with
  | none => exact absurd hrun (by decide)
  | some pr =>
    obtain ⟨ev, res⟩ := pr
    have h := deployFiles_upsert_spec cxMime cxFiles none cxMissing ev res hrun
    have hm := h.1.mpr (by decide)
    simpa [runEvents, hrun] using hm

/-! ## Claim C10: non-positive concurrency uploads nothing but deploys -/

/-- Claim C10: with `options.concurrency ≤ 0` the `for` loop spawns no
worker, so no blob is uploaded; the run nevertheless completes, still
upserts the full key set (the missing set being non-empty) and creates the
deployment, returning the filename-to-fingerprint result as if the uploads
had happened. -/
theorem deployFiles_zero_workers (mime : String → Option String) (files : List DFile)
    (cv : Int) (missing : List String) (hc : cv ≤ 0) (hm : missing ≠ []) :
    deployFiles mime files (some cv) missing =
      some ([Event.checkMissing (pipelineKeys files),
        Event.upsert (pipelineKeys files),
        Event.createDeployment (pipelineManifest files)],
        (files.map hashFile).map (fun f => (f.filename, f.hash))) := by
  have hw : workerCount (some cv) = 0 := by
    simp only [workerCount, effectiveConcurrency, Option.getD_some]
    omega
  cases missing with
  | nil => exact absurd rfl hm
  | cons hd tl => simp [deployFiles, hw]

/-- Claim C10, witness: the one-file scenario with concurrency -3 returns
a full deployment result with no upload event. -/
theorem deployFiles_zero_workers_witness :
    deployFiles cxMime cxFiles (some (-3)) cxMissing =
      some ([Event.checkMissing (pipelineKeys cxFiles),
        Event.upsert (pipelineKeys cxFiles),
        Event.createDeployment (pipelineManifest cxFiles)],
        (cxFiles.map hashFile).map (fun f => (f.filename, f.hash))) :=
  deployFiles_zero_workers cxMime cxFiles (-3) cxMissing (by norm_num) (by decide)
